import Mathlib

/-!
# Verification of the IMDb Top-1000 cleaning pipeline

Shallow embedding of the data-cleaning / feature-derivation pipeline shared by
the two entry points of the repository (`src/IMDB_data_analysis.py`, the richer
variant, and `src/imdb.py`).  Tables are lists of rows; a pandas cell that may
be `NaN` is an `Option`; `pandas` floats are modelled as `Rat`; fallible
whole-frame operations (`astype(int)` on a column with `NaN`, `idxmax` on an
empty series) return `Except`/`Option`.
-/

namespace IMDB

/-- Whitespace in the sense of Python's `str.strip()` (ASCII part). -/
def pyIsSpace (c : Char) : Bool :=
  c = ' ' || c = '\t' || c = '\n' || c = '\x0d' || c = '\x0b' || c = '\x0c'

/-- Python `s.strip()`: drop leading and trailing whitespace. -/
def strip (l : List Char) : List Char :=
  ((((l.dropWhile pyIsSpace).reverse).dropWhile pyIsSpace)).reverse

/-- Python `s.split(',')`. -/
def splitComma : List Char → List (List Char)
  | [] => [[]]
  | c :: cs =>
    if c = ',' then [] :: splitComma cs
    else
      match splitComma cs with
      | [] => [[c]]
      | t :: ts => (c :: t) :: ts

/-- Python `s.split(', ')` (the two-character separator used when exploding
normalized genre strings). -/
def splitCommaSpace : List Char → List (List Char)
  | [] => [[]]
  | ',' :: ' ' :: cs => [] :: splitCommaSpace cs
  | c :: cs =>
    match splitCommaSpace cs with
    | [] => [[c]]
    | t :: ts => (c :: t) :: ts

/-- Python `", ".join(ts)`. -/
def joinCommaSpace : List (List Char) → List Char
  | [] => []
  | [t] => t
  | t :: u :: ts => t ++ ',' :: ' ' :: joinCommaSpace (u :: ts)

/-- Ascending lexicographic sort on token lists, as Python `sorted` on `str`
(code-point lexicographic order). -/
def sortTokens (ts : List (List Char)) : List (List Char) :=
  ts.insertionSort (· ≤ ·)

/-- `src/imdb.py` lines 105-108 (`clean_genre`), and the lambda at
`src/IMDB_data_analysis.py` line 105:
`", ".join(sorted([x.strip() for x in g.split(',')]))`. -/
def clean_genre (g : String) : String :=
  ⟨joinCommaSpace (sortTokens ((splitComma g.data).map strip))⟩

/-- Value of a run of decimal digit characters. -/
def digitsVal (cs : List Char) : Nat :=
  cs.foldl (fun n c => 10 * n + (c.toNat - 48)) 0

/-- Python `str.replace(',', '')`: strip thousands separators
(`src/IMDB_data_analysis.py` line 83, `src/imdb.py` line 82). -/
def stripCommas (cs : List Char) : List Char :=
  cs.filter (fun c => c ≠ ',')

/-- `pd.to_numeric(·, errors='coerce')` on one cell: optional sign, then a
plain decimal literal (digits, optional point, digits); anything else coerces
to missing. -/
def toNumeric (cs : List Char) : Option Rat :=
  let cs := strip cs
  let neg : Bool := cs.head? = some '-'
  let cs := if cs.head? = some '-' || cs.head? = some '+' then cs.tail else cs
  let intPart := cs.takeWhile Char.isDigit
  let rest := cs.dropWhile Char.isDigit
  let withSign : Rat → Option Rat := fun q => some (if neg then -q else q)
  match rest with
  | [] =>
    if intPart.isEmpty then none
    else withSign (digitsVal intPart : Rat)
  | '.' :: frac =>
    if frac.all Char.isDigit && !(intPart.isEmpty && frac.isEmpty) then
      withSign ((digitsVal intPart : Rat)
        + (digitsVal frac : Rat) / ((10 : Rat) ^ frac.length))
    else none
  | _ => none

/-- `pd.to_numeric` over an optional cell: a missing cell stays missing. -/
def toNumericOpt (o : Option String) : Option Rat :=
  o.bind (fun s => toNumeric s.data)

/-- `Series.median()` (NaN excluded by the caller): sort, middle element, or
the mean of the two middle elements; `None` for an empty list (pandas `NaN`). -/
def medianList (l : List Rat) : Option Rat :=
  let s := l.insertionSort (· ≤ ·)
  let n := l.length
  if n = 0 then none
  else if n % 2 = 1 then some (s.getD (n / 2) 0)
  else some ((s.getD (n / 2 - 1) 0 + s.getD (n / 2) 0) / 2)

/-- `str.extract(r'(\d+)')` on one cell: the first maximal run of decimal
digits, or missing when there is none. -/
def firstDigitRun (cs : List Char) : Option (List Char) :=
  match cs.dropWhile (fun c => !c.isDigit) with
  | [] => none
  | c :: rest => some ((c :: rest).takeWhile Char.isDigit)

/-- Runtime extraction for one row:
`df['Runtime'].str.extract(r'(\d+)')` followed by integer conversion
(`src/IMDB_data_analysis.py` line 100, `src/imdb.py` lines 97-98).  Missing
text or text without digits yields a missing value (which makes the later
`astype(int)` fail). -/
def extractRuntime (o : Option String) : Option Nat :=
  o.bind (fun s => (firstDigitRun s.data).map digitsVal)

/-- One row of the raw CSV as loaded by `pd.read_csv`: every cell may be
missing (`NaN`).  Ratings are numeric in the file, the other fields textual. -/
structure RawRow where
  seriesTitle : Option String
  releasedYear : Option String
  certificate : Option String
  runtime : Option String
  genre : Option String
  director : Option String
  imdbRating : Option Rat
  gross : Option String
deriving Repr, DecidableEq

/-- One row of the cleaned, feature-engineered table produced by
`src/IMDB_data_analysis.py` lines 78-108 (certificate filled, gross parsed and
imputed, years parsed to integers, runtime minutes extracted, decade derived,
genre normalized).  Fields that pandas can still hold as `NaN` stay `Option`. -/
structure CleanRow where
  seriesTitle : Option String
  releasedYear : Int
  certificate : Option String
  runtime : Option String
  genre : Option String
  director : Option String
  imdbRating : Option Rat
  gross : Option Rat
  runtimeMinutes : Nat
  decade : Int
deriving Repr, DecidableEq

/-- Parsed gross for one row: separators stripped, then numeric coercion
(`src/IMDB_data_analysis.py` lines 82-84, `src/imdb.py` lines 81-83). -/
def grossParse (r : RawRow) : Option Rat :=
  r.gross.bind (fun s => toNumeric (stripCommas s.data))

/-- `median_gross = df['Gross'].median()` over the whole table, computed before
any row is dropped (`src/IMDB_data_analysis.py` line 85, `src/imdb.py`
line 84); `none` is pandas' `NaN` median of an all-missing column. -/
def grossMedian (rows : List RawRow) : Option Rat :=
  medianList (rows.filterMap grossParse)

/-- The critical-field row filter of the richer variant:
`df.dropna(subset=['Genre', 'Director', 'Series_Title', 'Released_Year'])`
(`src/IMDB_data_analysis.py` line 91). -/
def critKeepA (r : RawRow) : Bool :=
  r.genre.isSome && r.director.isSome && r.seriesTitle.isSome
    && r.releasedYear.isSome

/-- The critical-field row filter of `src/imdb.py` line 88:
`df.dropna(subset=['Genre', 'Director', 'Series_Title'])` — release year is
not part of this filter. -/
def critKeepB (r : RawRow) : Bool :=
  r.genre.isSome && r.director.isSome && r.seriesTitle.isSome

/-- `astype(int)` on a pandas float: truncation toward zero. -/
def ratTrunc (q : Rat) : Int :=
  if q < 0 then -((-q).floor) else q.floor

/-- Release-year parsing for one row:
`pd.to_numeric(df['Released_Year'], errors='coerce')` followed by
`dropna` and `astype(int)` (`src/IMDB_data_analysis.py` lines 94-96,
`src/imdb.py` lines 91-93).  `none` means the row is dropped. -/
def yearParse (r : RawRow) : Option Int :=
  (toNumericOpt r.releasedYear).map ratTrunc

/-- The rows surviving the richer variant's drop steps (critical-field filter
including release year, then the year-parse drop), paired with their parsed
integer year. -/
def preRowsA (rows : List RawRow) : List (RawRow × Int) :=
  (rows.filter critKeepA).filterMap (fun r => (yearParse r).map (fun y => (r, y)))

/-- `(df['Released_Year'] // 10) * 10` (`src/IMDB_data_analysis.py` line 102,
`src/imdb.py` line 99): floor division, as numpy `//` on int64. -/
def decadeOf (y : Int) : Int :=
  (Int.fdiv y 10) * 10

/-- Assembly of one cleaned row from a surviving raw row, its parsed year and
its extracted runtime minutes: certificate fill (line 79), gross median fill
(line 87), runtime minutes (line 100), decade (line 102), genre normalization
(line 105) of `src/IMDB_data_analysis.py`. -/
def finishRowA (med : Option Rat) (p : RawRow × Int) (m : Nat) : CleanRow :=
  { seriesTitle := p.1.seriesTitle
    releasedYear := p.2
    certificate := some (p.1.certificate.getD "Not Rated")
    runtime := p.1.runtime
    genre := p.1.genre.map clean_genre
    director := p.1.director
    imdbRating := p.1.imdbRating
    gross := (grossParse p.1).or med
    runtimeMinutes := m
    decade := decadeOf p.2 }

/-- Traversal of a list under a partial per-element function: `some` of the
image list when every element succeeds, `none` as soon as one fails.  This is
how a whole-column `astype(int)` behaves on a column with missing values. -/
def optMapList (f : α → Option β) : List α → Option (List β)
  | [] => some []
  | a :: as =>
    match f a, optMapList f as with
    | some b, some bs => some (b :: bs)
    | _, _ => none

/-- The cleaned table of `src/IMDB_data_analysis.py` up to (but excluding) the
de-duplication of line 108: an `Except` because
`df['Runtime'].str.extract(r'(\d+)').astype(int)` (line 100) raises when any
surviving row's runtime text has no digits. -/
def featA (rows : List RawRow) : Except String (List CleanRow) :=
  let med := grossMedian rows
  match optMapList
      (fun p => (extractRuntime p.1.runtime).map (finishRowA med p))
      (preRowsA rows) with
  | some l => Except.ok l
  | none => Except.error "cannot convert float NaN to integer"

/-- First-occurrence de-duplication under a key, accumulating the keys already
seen: the semantics of `df.drop_duplicates(subset=[k], keep='first')` and of
the insertion-ordered grouping inside `value_counts`. -/
def dedupKeyAux [DecidableEq β] (key : α → β) (seen : List β) :
    List α → List α
  | [] => []
  | a :: as =>
    if key a ∈ seen then dedupKeyAux key seen as
    else a :: dedupKeyAux key (key a :: seen) as

/-- `df.drop_duplicates(subset=['Series_Title'], keep='first')`
(`src/IMDB_data_analysis.py` line 108, `src/imdb.py` line 116). -/
def dropDuplicateTitles (l : List CleanRow) : List CleanRow :=
  dedupKeyAux CleanRow.seriesTitle [] l

/-- The full cleaning-and-feature pipeline of `src/IMDB_data_analysis.py`
lines 78-108 (the spec's canonical variant). -/
def cleanA (rows : List RawRow) : Except String (List CleanRow) :=
  (featA rows).map dropDuplicateTitles

/-- `Series.idxmax` composed with `df.loc`: the first element (in row order)
attaining the maximum of `f`, skipping missing values; `none` when no
non-missing value exists (pandas raises `ValueError` there). -/
def idxmaxBy (f : α → Option Rat) : List α → Option (α × Rat)
  | [] => none
  | r :: rs =>
    match f r with
    | none => idxmaxBy f rs
    | some v =>
      match idxmaxBy f rs with
      | none => some (r, v)
      | some (m, w) => if v < w then some (m, w) else some (r, v)

/-- `df['Genre'].str.split(', ').explode()` restricted to the non-missing
tokens that `value_counts` will count (`src/IMDB_data_analysis.py` line 116,
`src/imdb.py` line 131). -/
def explodeGenres (t : List CleanRow) : List String :=
  t.flatMap (fun r =>
    match r.genre with
    | some g => (splitCommaSpace g.data).map (fun cs => (⟨cs⟩ : String))
    | none => [])

/-- The head entries of `value_counts()`: each distinct value in order of
first appearance (pandas groups by an insertion-ordered hash table), paired
with its count. -/
def tokenCounts (toks : List String) : List (String × Nat) :=
  (dedupKeyAux id [] toks).map (fun t => (t, toks.count t))

/-- One step of the (stable, descending-by-count) sort `value_counts` applies
to the counts. -/
def insertCountDesc (x : String × Nat) : List (String × Nat) → List (String × Nat)
  | [] => [x]
  | y :: ys => if y.2 ≤ x.2 then x :: y :: ys else y :: insertCountDesc x ys

/-- `sort_values(ascending=False)` on the counts, stable as for the small
partitions involved here. -/
def sortCountsDesc (l : List (String × Nat)) : List (String × Nat) :=
  l.foldr insertCountDesc []

/-- One comparison step of `idxmax`'s scan: keep the current (earlier) entry
unless a strictly larger one is known further on. -/
def maxStep (x : String × Nat) : Option (String × Nat) → Option (String × Nat)
  | none => some x
  | some m => if x.2 < m.2 then some m else some x

/-- `Series.idxmax` on a counts series: first index attaining the maximum. -/
def firstMaxPair : List (String × Nat) → Option (String × Nat)
  | [] => none
  | x :: xs => maxStep x (firstMaxPair xs)

/-- `value_counts().idxmax()` over a token list
(`src/IMDB_data_analysis.py` lines 116-117 and 120, `src/imdb.py`
lines 130-132): `none` when the series is empty (pandas raises). -/
def valueCountsIdxmax (toks : List String) : Option String :=
  (firstMaxPair (sortCountsDesc (tokenCounts toks))).map Prod.fst

/-- The insights block of `src/IMDB_data_analysis.py` lines 112-121: the
highest-grossing row (line 113, `df.loc[df['Gross'].idxmax()]`), the most
common genre token (lines 116-117) and the most prolific director (line 120).
None of the three lookups is guarded, so an empty (or all-missing) input
raises — modelled as `Except.error` with pandas' message. -/
def insightsA (t : List CleanRow) :
    Except String (Option String × Option Rat × String × String) :=
  match idxmaxBy CleanRow.gross t with
  | none => Except.error "attempt to get argmax of an empty sequence"
  | some (hg, _) =>
    match valueCountsIdxmax (explodeGenres t) with
    | none => Except.error "attempt to get argmax of an empty sequence"
    | some mcg =>
      match valueCountsIdxmax (t.filterMap CleanRow.director) with
      | none => Except.error "attempt to get argmax of an empty sequence"
      | some td => Except.ok (hg.seriesTitle, hg.gross, mcg, td)

/-- The insights block of `src/imdb.py` lines 121-134: the highest-grossing
lookup and the most-common-genre lookup are each wrapped in `try/except` that
logs a warning instead of raising, i.e. each reports an explicitly
unavailable (`none`) result; there is no director insight in this variant. -/
structure InsightsB where
  highestGross : Option (Option String × Option Rat)
  mostCommonGenre : Option String
deriving Repr, DecidableEq

/-- `src/imdb.py` lines 121-134. -/
def insightsB (t : List CleanRow) : InsightsB :=
  { highestGross := (idxmaxBy CleanRow.gross t).map (fun p => (p.1.seriesTitle, p.1.gross))
    mostCommonGenre := valueCountsIdxmax (explodeGenres t) }

/-- "Modelled from the spec" only for comparison (§4.2 of the spec): the
most-common-token lookup described by the spec's words — the first token, in
input iteration order, whose frequency equals the maximum frequency. -/
def specFirstMostFrequent (toks : List String) : Option String :=
  toks.find? (fun t => toks.all (fun u => toks.count u ≤ toks.count t))

/-- The gross column after separator stripping and numeric coercion
(`src/IMDB_data_analysis.py` lines 82-84, `src/imdb.py` lines 81-83). -/
def parsedGrossCol (col : List (Option String)) : List (Option Rat) :=
  col.map (fun o => o.bind (fun s => toNumeric (stripCommas s.data)))

/-- The whole gross step, column level (`src/IMDB_data_analysis.py` lines
82-88, `src/imdb.py` lines 81-85): parse, take the median of the parseable
values, `fillna(median)`.  The second component is the `median_gross` the step
computed (and that line 88's log message reports); it is `none` — pandas `NaN`
— when no value was parseable, in which case `fillna(NaN)` changes nothing. -/
def grossFillColumn (col : List (Option String)) :
    List (Option Rat) × Option Rat :=
  let parsed := parsedGrossCol col
  let med := medianList (parsed.filterMap id)
  (parsed.map (fun o => o.or med), med)

/-- The rows kept by the richer variant's drop steps
(`src/IMDB_data_analysis.py` lines 91-95): critical-field filter including
release year, then the year-coercion drop. -/
def keptRowsA (rows : List RawRow) : List RawRow :=
  (rows.filter critKeepA).filter (fun r => (yearParse r).isSome)

/-- The rows kept by `src/imdb.py`'s drop steps (lines 88-92): critical-field
filter without release year, then the year-coercion drop. -/
def keptRowsB (rows : List RawRow) : List RawRow :=
  (rows.filter critKeepB).filter (fun r => (yearParse r).isSome)

/-- A raw row whose runtime text has no digit characters but which survives
every drop step before runtime extraction. -/
def sampleNoDigitsRow : RawRow :=
  { seriesTitle := some "B"
    releasedYear := some "2000"
    certificate := none
    runtime := some "unknown"
    genre := some "Drama"
    director := some "D"
    imdbRating := none
    gross := none }

/-- A cleaned row carrying a given (already normalized) genre string, used to
instantiate the genre-insight theorems on concrete tables. -/
def genreRow (g : String) : CleanRow :=
  { seriesTitle := some g
    releasedYear := 2000
    certificate := some "Not Rated"
    runtime := some "100 min"
    genre := some g
    director := none
    imdbRating := none
    gross := none
    runtimeMinutes := 100
    decade := 2000 }

/-- A well-formed raw row used to instantiate the universally quantified
pipeline theorems. -/
def sampleRow : RawRow :=
  { seriesTitle := some "A"
    releasedYear := some "1994"
    certificate := none
    runtime := some "142 min"
    genre := some "Drama, Comedy"
    director := some "D"
    imdbRating := some 8
    gross := some "1,234" }

/-- The cleaned row the pipeline produces from `sampleRow`. -/
def sampleCleanRow : CleanRow :=
  { seriesTitle := some "A"
    releasedYear := 1994
    certificate := some "Not Rated"
    runtime := some "142 min"
    genre := some "Comedy, Drama"
    director := some "D"
    imdbRating := some 8
    gross := some 1234
    runtimeMinutes := 142
    decade := 1990 }

/-! ## Supporting lemmas -/

theorem except_map_eq_ok {f : α → β} {e : Except String α} {out : β}
    (h : Except.map f e = Except.ok out) : ∃ pre, e = Except.ok pre ∧ out = f pre := by
  cases e with
  | error msg => cases h
  | ok pre =>
    refine ⟨pre, rfl, ?_⟩
    simpa [Except.map] using h.symm

theorem forall₂_mem_right {R : α → β → Prop} :
    ∀ {l : List α} {out : List β}, List.Forall₂ R l out →
      ∀ b ∈ out, ∃ a ∈ l, R a b := by
  intro l out h
  induction h with
  | nil => intro b hb; cases hb
  | cons hab _ ih =>
    intro b hb
    rcases List.mem_cons.mp hb with rfl | hb2
    · exact ⟨_, List.mem_cons_self .., hab⟩
    · obtain ⟨a, ha, hRa⟩ := ih b hb2
      exact ⟨a, List.mem_cons_of_mem _ ha, hRa⟩

theorem forall₂_map_eq {R : α → β → Prop} {g : β → γ} {k : α → γ}
    (hgk : ∀ a b, R a b → g b = k a) :
    ∀ {l : List α} {out : List β}, List.Forall₂ R l out →
      out.map g = l.map k := by
  intro l out h
  induction h with
  | nil => rfl
  | cons hab _ ih => simp [ih, hgk _ _ hab]

theorem dedupKeyAux_sublist [DecidableEq β] (key : α → β) :
    ∀ (l : List α) (seen : List β), (dedupKeyAux key seen l).Sublist l := by
  intro l
  induction l with
  | nil => intro seen; exact List.Sublist.refl _
  | cons a as ih =>
    intro seen
    by_cases h : key a ∈ seen
    · simp only [dedupKeyAux, if_pos h]
      exact List.Sublist.cons a (ih seen)
    · simp only [dedupKeyAux, if_neg h]
      exact List.Sublist.cons₂ a (ih (key a :: seen))

theorem dedupKeyAux_nodup [DecidableEq β] (key : α → β) :
    ∀ (l : List α) (seen : List β),
      ((dedupKeyAux key seen l).map key).Nodup
      ∧ ∀ a ∈ dedupKeyAux key seen l, key a ∉ seen := by
  intro l
  induction l with
  | nil => intro seen; exact ⟨List.nodup_nil, by intro a ha; cases ha⟩
  | cons x xs ih =>
    intro seen
    by_cases h : key x ∈ seen
    · simpa only [dedupKeyAux, if_pos h] using ih seen
    · obtain ⟨ihn, ihs⟩ := ih (key x :: seen)
      simp only [dedupKeyAux, if_neg h, List.map_cons]
      constructor
      · refine List.Nodup.cons ?_ ihn
        intro hmem
        rcases List.mem_map.mp hmem with ⟨a, ha, hka⟩
        exact (ihs a ha) (hka ▸ List.mem_cons_self ..)
      · intro a ha
        rcases List.mem_cons.mp ha with rfl | ha2
        · exact h
        · exact fun hs => (ihs a ha2) (List.mem_cons_of_mem _ hs)

theorem dedupKeyAux_keys_complete [DecidableEq β] (key : α → β) :
    ∀ (l : List α) (seen : List β), ∀ a ∈ l,
      key a ∈ seen ∨ key a ∈ (dedupKeyAux key seen l).map key := by
  intro l
  induction l with
  | nil => intro seen a ha; cases ha
  | cons x xs ih =>
    intro seen a ha
    by_cases h : key x ∈ seen
    · simp only [dedupKeyAux, if_pos h]
      rcases List.mem_cons.mp ha with rfl | ha2
      · exact Or.inl h
      · exact ih seen a ha2
    · simp only [dedupKeyAux, if_neg h, List.map_cons]
      rcases List.mem_cons.mp ha with rfl | ha2
      · exact Or.inr (List.mem_cons_self ..)
      · rcases ih (key x :: seen) a ha2 with hs | hd
        · rcases List.mem_cons.mp hs with he | hs2
          · exact Or.inr (he ▸ List.mem_cons_self ..)
          · exact Or.inl hs2
        · exact Or.inr (List.mem_cons_of_mem _ hd)

theorem dedupKeyAux_first_occurrence [DecidableEq β] (key : α → β) :
    ∀ (l : List α) (seen : List β), ∀ a ∈ dedupKeyAux key seen l,
      ∃ l1 l2, l = l1 ++ a :: l2 ∧ ∀ x ∈ l1, key x ≠ key a := by
  intro l
  induction l with
  | nil => intro seen a ha; cases ha
  | cons x xs ih =>
    intro seen a ha
    by_cases h : key x ∈ seen
    · rw [dedupKeyAux, if_pos h] at ha
      obtain ⟨l1, l2, heq, hne⟩ := ih seen a ha
      have hka : key a ∉ seen := (dedupKeyAux_nodup key xs seen).2 a ha
      refine ⟨x :: l1, l2, by rw [heq]; rfl, ?_⟩
      intro y hy
      rcases List.mem_cons.mp hy with rfl | hy2
      · exact fun he => hka (he ▸ h)
      · exact hne y hy2
    · rw [dedupKeyAux, if_neg h] at ha
      rcases List.mem_cons.mp ha with rfl | ha2
      · exact ⟨[], xs, rfl, by intro y hy; cases hy⟩
      · obtain ⟨l1, l2, heq, hne⟩ := ih (key x :: seen) a ha2
        have hka : key a ∉ key x :: seen :=
          (dedupKeyAux_nodup key xs (key x :: seen)).2 a ha2
        refine ⟨x :: l1, l2, by rw [heq]; rfl, ?_⟩
        intro y hy
        rcases List.mem_cons.mp hy with rfl | hy2
        · exact fun he => hka (he ▸ List.mem_cons_self ..)
        · exact hne y hy2

theorem optMapList_forall₂ {f : α → Option β} :
    ∀ {l : List α} {out : List β}, optMapList f l = some out →
      List.Forall₂ (fun a b => f a = some b) l out := by
  intro l
  induction l with
  | nil =>
    intro out h
    simp only [optMapList] at h
    cases h
    exact List.Forall₂.nil
  | cons a as ih =>
    intro out h
    simp only [optMapList] at h
    cases hfa : f a with
    | none => rw [hfa] at h; exact absurd h (by simp)
    | some b =>
      rw [hfa] at h
      cases hrec : optMapList f as with
      | none => rw [hrec] at h; exact absurd h (by simp)
      | some bs =>
          rw [hrec] at h
          simp only [Option.some.injEq] at h
          cases h
          exact List.Forall₂.cons hfa (ih hrec)

theorem optMapList_none_of_mem {f : α → Option β} {l : List α} {a : α}
    (ha : a ∈ l) (hfa : f a = none) : optMapList f l = none := by
  induction l with
  | nil => cases ha
  | cons x xs ih =>
    rcases List.mem_cons.mp ha with rfl | hx
    · simp only [optMapList, hfa]
    · simp only [optMapList, ih hx]
      cases f x <;> rfl

theorem forall₂_mem_left {R : α → β → Prop} :
    ∀ {l : List α} {out : List β}, List.Forall₂ R l out →
      ∀ a ∈ l, ∃ b ∈ out, R a b := by
  intro l out h
  induction h with
  | nil => intro a ha; cases ha
  | cons hab _ ih =>
    intro x hx
    rcases List.mem_cons.mp hx with rfl | hx2
    · exact ⟨_, List.mem_cons_self .., hab⟩
    · obtain ⟨b, hb, hRb⟩ := ih x hx2
      exact ⟨b, List.mem_cons_of_mem _ hb, hRb⟩

theorem dropWhile_head_false {p : α → Bool} :
    ∀ {l : List α} {a : α} {as : List α}, l.dropWhile p = a :: as → p a = false := by
  intro l
  induction l with
  | nil => intro a as h; cases h
  | cons x xs ih =>
    intro a as h
    by_cases hx : p x
    · rw [List.dropWhile_cons_of_pos hx] at h
      exact ih h
    · rw [List.dropWhile_cons_of_neg hx] at h
      cases h
      exact Bool.of_not_eq_true hx

theorem yearParse_none_of_year_none {r : RawRow} (h : r.releasedYear = none) :
    yearParse r = none := by
  simp [yearParse, toNumericOpt, h]

theorem preRowsA_fst_eq_keptRowsA (rows : List RawRow) :
    (preRowsA rows).map Prod.fst = keptRowsA rows := by
  unfold preRowsA keptRowsA
  induction rows.filter critKeepA with
  | nil => rfl
  | cons r l ih =>
    simp only [List.filterMap_cons, List.filter_cons]
    cases h : yearParse r with
    | none => simpa [h] using ih
    | some y => simpa [h] using ih

/-! ## Claim theorems -/

/-- C1 (counterexample): on an empty cleaned table, the insight computation of
`src/IMDB_data_analysis.py` lines 112-121 raises (`idxmax` of an empty series)
instead of returning three explicitly-unavailable lookups, so the claim as
stated is false. -/
theorem insightsA_empty_raises :
    insightsA [] = Except.error "attempt to get argmax of an empty sequence" :=
  rfl

/-- C1 (amended): on an empty cleaned table, the `src/imdb.py` variant reports
its two guarded insight lookups (top-grossing entry and most common genre) as
explicitly unavailable without raising — it has no director insight — while
the `src/IMDB_data_analysis.py` variant raises on its first (unguarded)
lookup. -/
theorem insights_empty_guarded_variant :
    insightsB [] = { highestGross := none, mostCommonGenre := none }
      ∧ insightsA [] = Except.error "attempt to get argmax of an empty sequence" :=
  ⟨rfl, rfl⟩

/-- C2: with every gross value missing or unparseable, the gross step computes
an undefined (missing) median and its `fillna` is a no-op that leaves every
value missing; no fill is skipped and no empty-column report exists in the
code — the step just returns the untouched column and the undefined median
(which line 88 of `src/IMDB_data_analysis.py` then logs as a "filled with
median: $nan" message). -/
theorem grossFill_all_missing_noop :
    grossFillColumn [none, some "N/A"] = ([none, none], none) := by
  decide

/-- C5: the gross step computes the median over the currently-parseable values
only and fills exactly the missing positions with it: parseable positions are
kept unchanged, missing positions receive the median of the parseable values,
and on gross values 10, 20, missing, 30 the missing value is filled with 20
(the median of the three parseable values). -/
theorem gross_median_fill_spec :
    (∀ (col : List (Option String)) (i : Nat) (v : Rat),
        (parsedGrossCol col)[i]? = some (some v) →
        ((grossFillColumn col).1)[i]? = some (some v))
    ∧ (∀ (col : List (Option String)) (i : Nat),
        (parsedGrossCol col)[i]? = some none →
        ((grossFillColumn col).1)[i]? =
          some (medianList ((parsedGrossCol col).filterMap id)))
    ∧ medianList [10, 20, 30] = some 20
    ∧ (grossFillColumn [some "10", some "20", none, some "30"]).1
        = [some 10, some 20, some 20, some 30] := by
  refine ⟨?_, ?_, by decide, by decide⟩
  · intro col i v h
    simp only [grossFillColumn, List.getElem?_map, h, Option.map_some]
    rfl
  · intro col i h
    simp only [grossFillColumn, List.getElem?_map, h, Option.map_some]
    rfl

/-- C5 witness: the general parts of `gross_median_fill_spec` applied to a
concrete column. -/
theorem gross_median_fill_spec_witness :
    ((grossFillColumn [some "10", none]).1)[0]? = some (some 10)
    ∧ ((grossFillColumn [some "10", none]).1)[1]?
        = some (medianList ((parsedGrossCol [some "10", none]).filterMap id)) :=
  ⟨gross_median_fill_spec.1 [some "10", none] 0 10 (by decide),
   gross_median_fill_spec.2.1 [some "10", none] 1 (by decide)⟩

/-- C7: the derived decade is the release year floored to the nearest lower
multiple of ten — it is divisible by ten and satisfies
`decade ≤ y < decade + 10`; every year of the 1920s maps to 1920, 1994 maps
to 1990 and 2005 maps to 2000. -/
theorem decade_floor_spec :
    (∀ y : Int, (10 : Int) ∣ decadeOf y ∧ decadeOf y ≤ y ∧ y < decadeOf y + 10)
    ∧ (∀ y : Int, 1920 ≤ y → y ≤ 1929 → decadeOf y = 1920)
    ∧ decadeOf 1994 = 1990 ∧ decadeOf 2005 = 2000 := by
  refine ⟨?_, ?_, by decide, by decide⟩
  · intro y
    unfold decadeOf
    rw [Int.fdiv_eq_ediv _ (by norm_num)]
    refine ⟨⟨y / 10, by ring⟩, ?_, ?_⟩ <;> omega
  · intro y h1 h2
    unfold decadeOf
    rw [Int.fdiv_eq_ediv _ (by norm_num)]
    omega

/-- C7 witness: `decade_floor_spec` applied at 1923. -/
theorem decade_floor_spec_witness : decadeOf 1923 = 1920 :=
  decade_floor_spec.2.1 1923 (by norm_num) (by norm_num)

/-- C10: the two variants keep exactly the same rows although
`src/IMDB_data_analysis.py` drops missing release years in the critical-field
filter while `src/imdb.py` leaves them to the later numeric-coercion drop: a
missing release year always coerces to a missing numeric value, so the later
drop removes it anyway.  The first conjunct ties the richer pipeline's actual
surviving rows to the same list. -/
theorem year_drop_order_equiv :
    ∀ rows : List RawRow,
      (preRowsA rows).map Prod.fst = keptRowsB rows
      ∧ keptRowsA rows = keptRowsB rows := by
  have key : ∀ rows : List RawRow, keptRowsA rows = keptRowsB rows := by
    intro rows
    unfold keptRowsA keptRowsB
    rw [List.filter_filter, List.filter_filter]
    apply List.filter_congr
    intro r _
    cases hy : r.releasedYear with
    | none =>
      have : yearParse r = none := yearParse_none_of_year_none hy
      simp [this]
    | some s =>
      simp [critKeepA, critKeepB, hy]
  intro rows
  exact ⟨(preRowsA_fst_eq_keptRowsA rows).trans (key rows), key rows⟩

/-- C6: for runtime text containing a digit, the extracted minutes are the
value of the first maximal run of digits (the text splits as
non-digits ++ run ++ rest with the run non-empty, all digits, and the rest not
starting with a digit); if any surviving row has runtime text without digits,
the whole run fails with the integer-conversion error — and a successful run
certifies that every surviving row's extraction succeeded, so a zero is never
silently substituted. -/
theorem runtime_extract_spec :
    (∀ s : String, s.data.any Char.isDigit = true →
      ∃ pre run post, s.data = pre ++ run ++ post
        ∧ (∀ c ∈ pre, c.isDigit = false)
        ∧ run ≠ []
        ∧ (∀ c ∈ run, c.isDigit = true)
        ∧ (∀ c cs, post = c :: cs → c.isDigit = false)
        ∧ extractRuntime (some s) = some (digitsVal run))
    ∧ (∀ rows : List RawRow,
        (∃ p ∈ preRowsA rows, extractRuntime p.1.runtime = none) →
        featA rows = Except.error "cannot convert float NaN to integer")
    ∧ (∀ (rows : List RawRow) (out : List CleanRow), featA rows = Except.ok out →
        ∀ p ∈ preRowsA rows, (extractRuntime p.1.runtime).isSome = true)
    ∧ extractRuntime (some "142 min") = some 142 := by
  refine ⟨?_, ?_, ?_, by decide⟩
  · intro s hs
    cases h : s.data.dropWhile (fun c => !c.isDigit) with
    | nil =>
      rw [List.dropWhile_eq_nil_iff] at h
      rcases List.any_eq_true.mp hs with ⟨c, hc, hd⟩
      have := h c hc
      rw [hd] at this
      cases this
    | cons c tail =>
      refine ⟨s.data.takeWhile (fun c => !c.isDigit),
        (c :: tail).takeWhile Char.isDigit, (c :: tail).dropWhile Char.isDigit,
        ?_, ?_, ?_, ?_, ?_, ?_⟩
      · rw [List.append_assoc, List.takeWhile_append_dropWhile, ← h,
          List.takeWhile_append_dropWhile]
      · intro c2 hc2
        have := List.mem_takeWhile_imp hc2
        simpa using this
      · have hc : c.isDigit = true := by
          have := dropWhile_head_false h
          simpa using this
        simp [List.takeWhile_cons, hc]
      · intro c2 hc2
        exact List.mem_takeWhile_imp hc2
      · intro c2 cs2 hpost
        exact dropWhile_head_false hpost
      · show (firstDigitRun s.data).map digitsVal = _
        unfold firstDigitRun
        rw [h]
        rfl
  · intro rows ⟨p, hp, hnone⟩
    simp only [featA]
    rw [optMapList_none_of_mem hp (by simp [hnone])]
  · intro rows out hok p hp
    simp only [featA] at hok
    cases hmap : optMapList
        (fun p => (extractRuntime p.1.runtime).map (finishRowA (grossMedian rows) p))
        (preRowsA rows) with
    | none => rw [hmap] at hok; cases hok
    | some l =>
      obtain ⟨b, _, hb⟩ := forall₂_mem_left (optMapList_forall₂ hmap) p hp
      cases hext : extractRuntime p.1.runtime with
      | none => rw [hext] at hb; cases hb
      | some m => rfl

/-- The successful pipeline output is pointwise related to the surviving rows. -/
theorem featA_ok_forall₂ {rows : List RawRow} {pre : List CleanRow}
    (h : featA rows = Except.ok pre) :
    List.Forall₂
      (fun p b =>
        (extractRuntime p.1.runtime).map (finishRowA (grossMedian rows) p) = some b)
      (preRowsA rows) pre := by
  simp only [featA] at h
  cases hmap : optMapList
      (fun p => (extractRuntime p.1.runtime).map (finishRowA (grossMedian rows) p))
      (preRowsA rows) with
  | none => rw [hmap] at h; cases h
  | some l =>
    rw [hmap] at h
    cases h
    exact optMapList_forall₂ hmap

theorem of_mem_preRowsA {rows : List RawRow} {p : RawRow × Int}
    (hp : p ∈ preRowsA rows) :
    p.1 ∈ rows ∧ critKeepA p.1 = true ∧ yearParse p.1 = some p.2 := by
  unfold preRowsA at hp
  rcases List.mem_filterMap.mp hp with ⟨r0, hr0, hmap⟩
  rcases Option.map_eq_some'.mp hmap with ⟨y, hy, he⟩
  rcases List.mem_filter.mp hr0 with ⟨hmem, hcrit⟩
  subst he
  exact ⟨hmem, hcrit, hy⟩

/-- C4: a successfully cleaned table has no null certificate, genre, director
or title, its release years are integers obtained from successfully parsed raw
years, and each row stems from a raw row whose missing certificate (if any)
was replaced by the sentinel "Not Rated" while title and director carry over
unchanged — rows missing genre, director, title or a parseable release year
never reach the output. -/
theorem cleaned_rows_non_null :
    ∀ (rows : List RawRow) (out : List CleanRow), cleanA rows = Except.ok out →
      ∀ r ∈ out,
        r.certificate.isSome = true ∧ r.genre.isSome = true
        ∧ r.director.isSome = true ∧ r.seriesTitle.isSome = true
        ∧ ∃ raw ∈ rows, r.seriesTitle = raw.seriesTitle ∧ r.director = raw.director
            ∧ r.certificate = some (raw.certificate.getD "Not Rated")
            ∧ ∃ q, toNumericOpt raw.releasedYear = some q
                ∧ r.releasedYear = ratTrunc q := by
  intro rows out hok r hr
  obtain ⟨pre, hpre, hout⟩ := except_map_eq_ok hok
  have hrd : r ∈ dropDuplicateTitles pre := by rw [← hout]; exact hr
  have hrpre : r ∈ pre :=
    (dedupKeyAux_sublist CleanRow.seriesTitle pre []).subset hrd
  obtain ⟨p, hpP, hF⟩ := forall₂_mem_right (featA_ok_forall₂ hpre) r hrpre
  rcases Option.map_eq_some'.mp hF with ⟨m, _, hfin⟩
  obtain ⟨hmem, hcrit, hyear⟩ := of_mem_preRowsA hpP
  simp only [critKeepA, Bool.and_eq_true] at hcrit
  obtain ⟨⟨⟨hg, hd⟩, ht⟩, _⟩ := hcrit
  subst hfin
  refine ⟨rfl, ?_, hd, ht, p.1, hmem, rfl, rfl, rfl, ?_⟩
  · simp [finishRowA, Option.isSome_map, hg]
  · rcases Option.map_eq_some'.mp hyear with ⟨q, hq, htr⟩
    exact ⟨q, hq, htr.symm⟩

/-- C4 witness: `cleaned_rows_non_null` applied to the concrete one-row table
built from `sampleRow`. -/
theorem cleaned_rows_non_null_witness : sampleCleanRow.certificate.isSome = true :=
  (cleaned_rows_non_null [sampleRow] [sampleCleanRow] rfl
    sampleCleanRow (by decide)).1

/-- C3: in a successfully cleaned table, titles are pairwise distinct; the
sequence of cleaned titles is a subsequence of the raw table's title column
(so the original relative order is preserved); every title that reached the
de-duplication step is still represented; and each kept row is the first
occurrence of its title among the rows that reached the de-duplication step. -/
theorem dedup_titles_spec :
    ∀ (rows : List RawRow) (out : List CleanRow), cleanA rows = Except.ok out →
      (out.map CleanRow.seriesTitle).Nodup
      ∧ (out.map CleanRow.seriesTitle).Sublist (rows.map RawRow.seriesTitle)
      ∧ ∃ pre, featA rows = Except.ok pre ∧ out.Sublist pre
          ∧ (∀ r ∈ pre, r.seriesTitle ∈ out.map CleanRow.seriesTitle)
          ∧ ∀ r ∈ out, ∃ l1 l2, pre = l1 ++ r :: l2
              ∧ ∀ x ∈ l1, x.seriesTitle ≠ r.seriesTitle := by
  intro rows out hok
  obtain ⟨pre, hpre, hout⟩ := except_map_eq_ok hok
  subst hout
  have hsub : (dropDuplicateTitles pre).Sublist pre :=
    dedupKeyAux_sublist CleanRow.seriesTitle pre []
  refine ⟨(dedupKeyAux_nodup CleanRow.seriesTitle pre []).1, ?_, pre, hpre, hsub,
    ?_, ?_⟩
  · have h1 : pre.map CleanRow.seriesTitle
        = (preRowsA rows).map (fun p => p.1.seriesTitle) := by
      refine forall₂_map_eq ?_ (featA_ok_forall₂ hpre)
      intro a b hab
      rcases Option.map_eq_some'.mp hab with ⟨m, _, hfin⟩
      rw [← hfin]
      rfl
    have h2 : (preRowsA rows).map (fun p => p.1.seriesTitle)
        = (keptRowsA rows).map RawRow.seriesTitle := by
      rw [← preRowsA_fst_eq_keptRowsA, List.map_map]
      rfl
    have h3 : (keptRowsA rows).Sublist rows :=
      (List.filter_sublist _).trans (List.filter_sublist _)
    have h4 : ((dropDuplicateTitles pre).map CleanRow.seriesTitle).Sublist
        (pre.map CleanRow.seriesTitle) := List.Sublist.map _ hsub
    rw [h1, h2] at h4
    exact h4.trans (List.Sublist.map _ h3)
  · intro r hrpre
    rcases dedupKeyAux_keys_complete CleanRow.seriesTitle pre [] r hrpre with h | h
    · cases h
    · exact h
  · intro r hr
    exact dedupKeyAux_first_occurrence CleanRow.seriesTitle pre [] r hr

/-- C3 witness: `dedup_titles_spec` applied to the concrete one-row table
built from `sampleRow`. -/
theorem dedup_titles_spec_witness :
    (([sampleCleanRow] : List CleanRow).map CleanRow.seriesTitle).Nodup :=
  (dedup_titles_spec [sampleRow] [sampleCleanRow] rfl).1

/-- C6 witness: the decomposition at the concrete runtime text "142 min", and
the whole-run failure on a concrete table whose single surviving row has a
digit-free runtime text. -/
theorem runtime_extract_spec_witness :
    (∃ pre run post, "142 min".data = pre ++ run ++ post
        ∧ (∀ c ∈ pre, c.isDigit = false)
        ∧ run ≠ []
        ∧ (∀ c ∈ run, c.isDigit = true)
        ∧ (∀ c cs, post = c :: cs → c.isDigit = false)
        ∧ extractRuntime (some "142 min") = some (digitsVal run))
    ∧ featA [sampleNoDigitsRow] = Except.error "cannot convert float NaN to integer" :=
  ⟨runtime_extract_spec.1 "142 min" (by decide),
   runtime_extract_spec.2.1 [sampleNoDigitsRow]
     ⟨(sampleNoDigitsRow, 2000), by decide, by decide⟩⟩

theorem dropWhile_idem {p : α → Bool} :
    ∀ l : List α, (l.dropWhile p).dropWhile p = l.dropWhile p := by
  intro l
  induction l with
  | nil => rfl
  | cons a as ih =>
    by_cases h : p a
    · rw [List.dropWhile_cons_of_pos h]
      exact ih
    · rw [List.dropWhile_cons_of_neg h, List.dropWhile_cons_of_neg h]

/-- Removing trailing whitespace preserves the absence of leading
whitespace. -/
theorem dropWhile_reverse_dropWhile {x : List Char}
    (h : x.dropWhile pyIsSpace = x) :
    ((x.reverse.dropWhile pyIsSpace).reverse).dropWhile pyIsSpace
      = (x.reverse.dropWhile pyIsSpace).reverse := by
  cases x with
  | nil => rfl
  | cons c x2 =>
    have hc : pyIsSpace c = false := by
      by_cases hc : pyIsSpace c
      · rw [List.dropWhile_cons_of_pos hc] at h
        have hlen := (List.dropWhile_sublist (l := x2) pyIsSpace).length_le
        rw [h] at hlen
        simp at hlen
      · exact Bool.of_not_eq_true hc
    rw [List.reverse_cons, List.dropWhile_append]
    by_cases he : (x2.reverse.dropWhile pyIsSpace).isEmpty
    · rw [if_pos he]
      simp [List.dropWhile, hc]
    · rw [if_neg he, List.reverse_append]
      simp only [List.reverse_cons, List.reverse_nil, List.nil_append,
        List.singleton_append]
      rw [List.dropWhile_cons_of_neg (by rw [hc]; exact Bool.false_ne_true)]

theorem strip_idem (l : List Char) : strip (strip l) = strip l := by
  have h1 : (strip l).dropWhile pyIsSpace = strip l :=
    dropWhile_reverse_dropWhile (dropWhile_idem l)
  show (((strip l).dropWhile pyIsSpace).reverse.dropWhile pyIsSpace).reverse
      = strip l
  rw [h1]
  show ((((l.dropWhile pyIsSpace).reverse.dropWhile pyIsSpace).reverse).reverse.dropWhile
      pyIsSpace).reverse = strip l
  rw [List.reverse_reverse, dropWhile_idem]
  rfl

theorem strip_cons_space (u : List Char) : strip (' ' :: u) = strip u := by
  show ((List.dropWhile pyIsSpace (' ' :: u)).reverse.dropWhile pyIsSpace).reverse
      = strip u
  rw [List.dropWhile_cons_of_pos (by rfl)]
  rfl

theorem strip_sublist (l : List Char) : (strip l).Sublist l := by
  have h1 : ((l.dropWhile pyIsSpace).reverse.dropWhile pyIsSpace).Sublist
      (l.dropWhile pyIsSpace).reverse := List.dropWhile_sublist _
  have h2 := h1.reverse
  rw [List.reverse_reverse] at h2
  exact h2.trans (List.dropWhile_sublist _)

theorem splitComma_ne_nil : ∀ cs : List Char, splitComma cs ≠ [] := by
  intro cs
  induction cs with
  | nil => simp [splitComma]
  | cons c cs2 ih =>
    by_cases hc : c = ','
    · simp [splitComma, hc]
    · simp only [splitComma, if_neg hc]
      cases h : splitComma cs2 with
      | nil => exact absurd h ih
      | cons t ts => simp

theorem splitComma_commafree :
    ∀ cs : List Char, ∀ t ∈ splitComma cs, ∀ c ∈ t, c ≠ ',' := by
  intro cs
  induction cs with
  | nil =>
    intro t ht
    simp only [splitComma, List.mem_singleton] at ht
    subst ht
    intro c hc
    cases hc
  | cons c0 cs2 ih =>
    intro t ht
    by_cases hc : c0 = ','
    · rw [show splitComma (c0 :: cs2) = [] :: splitComma cs2 by
        simp [splitComma, hc]] at ht
      rcases List.mem_cons.mp ht with rfl | ht2
      · intro c hc2; cases hc2
      · exact ih t ht2
    · simp only [splitComma, if_neg hc] at ht
      cases h : splitComma cs2 with
      | nil => exact absurd h (splitComma_ne_nil cs2)
      | cons u us =>
        rw [h] at ht
        rcases List.mem_cons.mp ht with rfl | ht2
        · intro c hcm
          rcases List.mem_cons.mp hcm with rfl | hcm2
          · exact hc
          · exact ih u (h ▸ List.mem_cons_self ..) c hcm2
        · exact ih t (h ▸ List.mem_cons_of_mem _ ht2)

theorem splitComma_append {t : List Char} (h : ∀ c ∈ t, c ≠ ',') :
    ∀ {r : List Char} {h0 : List Char} {hs : List (List Char)},
      splitComma r = h0 :: hs → splitComma (t ++ r) = (t ++ h0) :: hs := by
  induction t with
  | nil =>
    intro r h0 hs hr
    simpa using hr
  | cons c t2 ih =>
    intro r h0 hs hr
    have hc : c ≠ ',' := h c (List.mem_cons_self ..)
    have ih2 := ih (fun c2 hc2 => h c2 (List.mem_cons_of_mem _ hc2)) hr
    simp only [List.cons_append, splitComma, if_neg hc, List.append_eq, ih2]

theorem splitComma_joinCommaSpace :
    ∀ (ts : List (List Char)) (t : List Char),
      (∀ u ∈ t :: ts, ∀ c ∈ u, c ≠ ',') →
      splitComma (joinCommaSpace (t :: ts)) = t :: ts.map (fun u => ' ' :: u) := by
  intro ts
  induction ts with
  | nil =>
    intro t hcf
    have h1 := splitComma_append (hcf t (List.mem_cons_self ..))
      (show splitComma [] = [] :: [] from rfl)
    rw [List.append_nil] at h1
    exact h1
  | cons u ts2 ih =>
    intro t hcf
    show splitComma (t ++ ',' :: ' ' :: joinCommaSpace (u :: ts2)) = _
    have hJ : splitComma (joinCommaSpace (u :: ts2)) = u :: ts2.map (fun v => ' ' :: v) :=
      ih u (fun v hv => hcf v (List.mem_cons_of_mem _ hv))
    have h2 : splitComma (',' :: ' ' :: joinCommaSpace (u :: ts2))
        = [] :: (' ' :: u) :: ts2.map (fun v => ' ' :: v) := by
      show (if ',' = ',' then _ else _) = _
      rw [if_pos rfl]
      show ([] : List Char) :: (if ' ' = ',' then _ else _) = _
      rw [if_neg (by decide), hJ]
    rw [splitComma_append (hcf t (List.mem_cons_self ..)) h2]
    simp [List.map]

/-- A non-empty list of comma-free, already-stripped, sorted tokens is a fixed
point of the normalization core (split on comma, strip tokens, sort). -/
theorem norm_tokens_fixed :
    ∀ ts : List (List Char), ts ≠ [] →
      (∀ t ∈ ts, ∀ c ∈ t, c ≠ ',') →
      (∀ t ∈ ts, strip t = t) →
      List.Sorted (· ≤ ·) ts →
      sortTokens ((splitComma (joinCommaSpace ts)).map strip) = ts := by
  intro ts hne hcf hstr hsorted
  cases ts with
  | nil => exact absurd rfl hne
  | cons t0 rest =>
    rw [splitComma_joinCommaSpace rest t0 hcf]
    have hms : ((t0 :: rest.map (fun u => ' ' :: u)).map strip) = t0 :: rest := by
      simp only [List.map_cons, List.map_map]
      rw [hstr t0 (List.mem_cons_self ..)]
      congr 1
      have he : ∀ u ∈ rest, (strip ∘ fun u => ' ' :: u) u = u := by
        intro u hu
        exact (strip_cons_space u).trans (hstr u (List.mem_cons_of_mem _ hu))
      rw [List.map_congr_left he]
      simp
    rw [hms]
    exact List.Sorted.insertionSort_eq hsorted

/-- C8: genre normalization (split on comma, strip each token, sort, rejoin
with ", ") is idempotent, and equivalent genre lists in different orders
canonicalize to one identical string, e.g. "Drama, Comedy" and
"Comedy, Drama" both normalize to "Comedy, Drama". -/
theorem clean_genre_idempotent :
    (∀ g : String, clean_genre (clean_genre g) = clean_genre g)
    ∧ clean_genre "Drama, Comedy" = clean_genre "Comedy, Drama"
    ∧ clean_genre "Comedy, Drama" = "Comedy, Drama" := by
  refine ⟨?_, by decide, by decide⟩
  intro g
  have hmem : ∀ t ∈ sortTokens ((splitComma g.data).map strip),
      ∃ u ∈ splitComma g.data, t = strip u := by
    intro t ht
    have := (List.perm_insertionSort (· ≤ ·) ((splitComma g.data).map strip)).mem_iff.mp ht
    rcases List.mem_map.mp this with ⟨u, hu, he⟩
    exact ⟨u, hu, he.symm⟩
  have hstr : ∀ t ∈ sortTokens ((splitComma g.data).map strip), strip t = t := by
    intro t ht
    rcases hmem t ht with ⟨u, _, rfl⟩
    exact strip_idem u
  have hcf : ∀ t ∈ sortTokens ((splitComma g.data).map strip), ∀ c ∈ t, c ≠ ',' := by
    intro t ht c hc
    rcases hmem t ht with ⟨u, hu, rfl⟩
    exact splitComma_commafree g.data u hu c ((strip_sublist u).subset hc)
  have hne : sortTokens ((splitComma g.data).map strip) ≠ [] := by
    intro h
    simp only [sortTokens] at h
    have hlen := (List.perm_insertionSort (· ≤ ·) ((splitComma g.data).map strip)).length_eq
    rw [h] at hlen
    cases hsp : splitComma g.data with
    | nil => exact splitComma_ne_nil g.data hsp
    | cons a as => rw [hsp] at hlen; simp at hlen
  have hsorted : List.Sorted (· ≤ ·) (sortTokens ((splitComma g.data).map strip)) :=
    List.sorted_insertionSort _ _
  have key := norm_tokens_fixed (sortTokens ((splitComma g.data).map strip))
    hne hcf hstr hsorted
  show (⟨joinCommaSpace (sortTokens ((splitComma
      (joinCommaSpace (sortTokens ((splitComma g.data).map strip)))).map strip))⟩ : String)
    = ⟨joinCommaSpace (sortTokens ((splitComma g.data).map strip))⟩
  rw [key]

theorem snd_le_foldr_max {l : List (String × Nat)} {p : String × Nat}
    (hp : p ∈ l) : p.2 ≤ (l.map Prod.snd).foldr max 0 := by
  induction l with
  | nil => cases hp
  | cons x xs ih =>
    rcases List.mem_cons.mp hp with rfl | hp2
    · simp only [List.map_cons, List.foldr_cons]
      omega
    · have := ih hp2
      simp only [List.map_cons, List.foldr_cons]
      omega

theorem foldr_max_le {l : List (String × Nat)} {b : Nat}
    (h : ∀ p ∈ l, p.2 ≤ b) : (l.map Prod.snd).foldr max 0 ≤ b := by
  induction l with
  | nil => simp
  | cons x xs ih =>
    simp only [List.map_cons, List.foldr_cons]
    have h1 := h x (List.mem_cons_self ..)
    have h2 := ih (fun p hp => h p (List.mem_cons_of_mem _ hp))
    omega

theorem ne_true_of_eq_false {b : Bool} (h : b = false) : ¬ b = true := by
  rw [h]
  exact Bool.false_ne_true

theorem maxStep_comm {x y : String × Nat} (h : x.2 < y.2) :
    ∀ F : Option (String × Nat), maxStep y (maxStep x F) = maxStep x (maxStep y F) := by
  intro F
  cases F <;> simp only [maxStep] <;> split_ifs <;>
    (try simp only [maxStep]) <;> (try split_ifs) <;>
    first
    | rfl
    | (exfalso; omega)

theorem find?_cons_eq_of_true (p : α → Bool) (a : α) (l : List α)
    (h : p a = true) : List.find? p (a :: l) = some a :=
  List.find?_cons_of_pos l h

theorem find?_cons_eq_of_false (p : α → Bool) (a : α) (l : List α)
    (h : p a = false) : List.find? p (a :: l) = List.find? p l :=
  List.find?_cons_of_neg l (ne_true_of_eq_false h)

theorem firstMaxPair_spec :
    ∀ l : List (String × Nat), l ≠ [] →
      ∃ m, firstMaxPair l = some m ∧ m.2 = (l.map Prod.snd).foldr max 0 := by
  intro l
  induction l with
  | nil => intro h; exact absurd rfl h
  | cons x xs ih =>
    intro _
    by_cases hxs : xs = []
    · subst hxs
      exact ⟨x, rfl, by simp⟩
    · obtain ⟨m, hm, hm2⟩ := ih hxs
      show ∃ m2, maxStep x (firstMaxPair xs) = some m2
        ∧ m2.2 = ((x :: xs).map Prod.snd).foldr max 0
      rw [hm]
      simp only [maxStep]
      by_cases hlt : x.2 < m.2
      · exact ⟨m, by rw [if_pos hlt], by
          simp only [List.map_cons, List.foldr_cons]; omega⟩
      · exact ⟨x, by rw [if_neg hlt], by
          simp only [List.map_cons, List.foldr_cons]; omega⟩

theorem firstMaxPair_eq_find :
    ∀ l : List (String × Nat),
      firstMaxPair l
        = l.find? (fun p => (l.map Prod.snd).foldr max 0 ≤ p.2) := by
  intro l
  induction l with
  | nil => rfl
  | cons x xs ih =>
    by_cases hxs : xs = []
    · subst hxs
      show some x = _
      rw [List.find?_cons_of_pos _ (by simp)]
    · obtain ⟨m, hm, hm2⟩ := firstMaxPair_spec xs hxs
      show maxStep x (firstMaxPair xs) = _
      rw [hm]
      simp only [maxStep]
      by_cases hle : ((x :: xs).map Prod.snd).foldr max 0 ≤ x.2
      · have hnlt : ¬ x.2 < m.2 := by
          simp only [List.map_cons, List.foldr_cons] at hle
          omega
        rw [if_neg hnlt, find?_cons_eq_of_true
          (fun p => decide (((x :: xs).map Prod.snd).foldr max 0 ≤ p.2)) x xs
          (decide_eq_true hle)]
      · have hxm : x.2 < m.2 := by
          simp only [List.map_cons, List.foldr_cons] at hle
          omega
        have hMeq : ((x :: xs).map Prod.snd).foldr max 0
            = (xs.map Prod.snd).foldr max 0 := by
          simp only [List.map_cons, List.foldr_cons]
          omega
        rw [if_pos hxm, find?_cons_eq_of_false
          (fun p => decide (((x :: xs).map Prod.snd).foldr max 0 ≤ p.2)) x xs
          (decide_eq_false hle), hMeq, ← ih, hm]

theorem firstMaxPair_insert (x : String × Nat) :
    ∀ s : List (String × Nat),
      firstMaxPair (insertCountDesc x s) = firstMaxPair (x :: s) := by
  intro s
  induction s with
  | nil => rfl
  | cons y ys ih =>
    by_cases hyx : y.2 ≤ x.2
    · rw [insertCountDesc, if_pos hyx]
    · rw [insertCountDesc, if_neg hyx]
      show maxStep y (firstMaxPair (insertCountDesc x ys)) = _
      rw [ih]
      show maxStep y (maxStep x (firstMaxPair ys))
        = maxStep x (maxStep y (firstMaxPair ys))
      exact maxStep_comm (by omega) (firstMaxPair ys)

theorem firstMaxPair_sortCountsDesc :
    ∀ l : List (String × Nat),
      firstMaxPair (sortCountsDesc l) = firstMaxPair l := by
  intro l
  induction l with
  | nil => rfl
  | cons x xs ih =>
    show firstMaxPair (insertCountDesc x (sortCountsDesc xs)) = _
    rw [firstMaxPair_insert]
    show maxStep x (firstMaxPair (sortCountsDesc xs)) = _
    rw [ih]
    rfl

theorem dedupKeyAux_id_find? {P : String → Bool} :
    ∀ (l seen : List String), (∀ s ∈ seen, P s = false) →
      (dedupKeyAux id seen l).find? P = l.find? P := by
  intro l
  induction l with
  | nil => intro seen _; rfl
  | cons x xs ih =>
    intro seen hseen
    by_cases hx : id x ∈ seen
    · rw [dedupKeyAux, if_pos hx]
      have hPx : P x = false := hseen x hx
      rw [ih seen hseen, List.find?_cons_of_neg _ (ne_true_of_eq_false hPx)]
    · rw [dedupKeyAux, if_neg hx]
      by_cases hPx : P x = true
      · rw [List.find?_cons_of_pos _ hPx, List.find?_cons_of_pos _ hPx]
      · have hPx2 : P x = false := Bool.of_not_eq_true hPx
        rw [List.find?_cons_of_neg _ (ne_true_of_eq_false hPx2),
          List.find?_cons_of_neg _ (ne_true_of_eq_false hPx2)]
        refine ih (x :: seen) ?_
        intro s hs
        rcases List.mem_cons.mp hs with rfl | hs2
        · exact hPx2
        · exact hseen s hs2

theorem mem_dedupKeyAux_id :
    ∀ (l seen : List String) (a : String), a ∈ l → a ∉ seen →
      a ∈ dedupKeyAux id seen l := by
  intro l
  induction l with
  | nil => intro seen a ha; intro _; cases ha
  | cons x xs ih =>
    intro seen a ha hns
    by_cases hx : id x ∈ seen
    · rw [dedupKeyAux, if_pos hx]
      rcases List.mem_cons.mp ha with rfl | ha2
      · exact absurd hx hns
      · exact ih seen a ha2 hns
    · rw [dedupKeyAux, if_neg hx]
      rcases List.mem_cons.mp ha with rfl | ha2
      · exact List.mem_cons_self ..
      · by_cases hax : a = x
        · subst hax
          exact List.mem_cons_self ..
        · refine List.mem_cons_of_mem _ (ih (x :: seen) a ha2 ?_)
          intro hmem
          rcases List.mem_cons.mp hmem with h | h
          · exact hax h
          · exact hns h

theorem find?_congr_mem {p q : α → Bool} :
    ∀ l : List α, (∀ a ∈ l, p a = q a) → l.find? p = l.find? q := by
  intro l
  induction l with
  | nil => intro _; rfl
  | cons x xs ih =>
    intro h
    have hx := h x (List.mem_cons_self ..)
    by_cases hp : p x = true
    · rw [List.find?_cons_of_pos _ hp, List.find?_cons_of_pos _ (hx ▸ hp)]
    · have hp2 : p x = false := Bool.of_not_eq_true hp
      rw [List.find?_cons_of_neg _ (ne_true_of_eq_false hp2),
        List.find?_cons_of_neg _ (ne_true_of_eq_false (hx ▸ hp2)),
        ih (fun a ha => h a (List.mem_cons_of_mem _ ha))]

theorem count_pred_congr (toks : List String) (t : String) (_ : t ∈ toks) :
    decide (((((dedupKeyAux id [] toks).map
        (fun u => (u, toks.count u))).map Prod.snd).foldr max 0) ≤ toks.count t)
      = toks.all (fun u => decide (toks.count u ≤ toks.count t)) := by
  by_cases hM : ((((dedupKeyAux id [] toks).map
      (fun u => (u, toks.count u))).map Prod.snd).foldr max 0) ≤ toks.count t
  · rw [decide_eq_true hM]
    symm
    rw [List.all_eq_true]
    intro u hu
    refine decide_eq_true ?_
    have hu2 : (u, toks.count u) ∈ (dedupKeyAux id [] toks).map
        (fun u => (u, toks.count u)) :=
      List.mem_map.mpr ⟨u, mem_dedupKeyAux_id toks [] u hu (by simp), rfl⟩
    have h2 : toks.count u ≤ (((dedupKeyAux id [] toks).map
        (fun u => (u, toks.count u))).map Prod.snd).foldr max 0 :=
      snd_le_foldr_max hu2
    omega
  · rw [decide_eq_false hM]
    symm
    cases hall : toks.all (fun u => decide (toks.count u ≤ toks.count t)) with
    | false => rfl
    | true =>
      exfalso
      apply hM
      refine foldr_max_le ?_
      intro p hp
      rcases List.mem_map.mp hp with ⟨v, hv, he⟩
      have hvt : v ∈ toks :=
        (dedupKeyAux_sublist id toks []).subset hv
      have := List.all_eq_true.mp hall v hvt
      have h3 : toks.count v ≤ toks.count t := of_decide_eq_true this
      rw [← he]
      exact h3

/-- C9: the most-common-token lookup (`value_counts().idxmax()`) equals the
spec's description — the first token in input iteration order whose frequency
is maximal — so ties are broken deterministically toward the
first-encountered token; over token multisets with counts A:2, B:2 it returns
whichever of A and B appeared first, also through the genre explode step. -/
theorem most_common_genre_tiebreak :
    (∀ toks : List String, valueCountsIdxmax toks = specFirstMostFrequent toks)
    ∧ valueCountsIdxmax ["A", "B", "A", "B"] = some "A"
    ∧ valueCountsIdxmax ["B", "A", "A", "B"] = some "B"
    ∧ valueCountsIdxmax (explodeGenres [genreRow "B, C", genreRow "C, B"])
        = some "B" := by
  refine ⟨?_, by decide, by decide, by decide⟩
  intro toks
  unfold valueCountsIdxmax
  rw [firstMaxPair_sortCountsDesc, firstMaxPair_eq_find]
  simp only [tokenCounts]
  rw [List.find?_map, Option.map_map]
  rw [dedupKeyAux_id_find? toks [] (by intro s hs; cases hs)]
  have hid : (Prod.fst ∘ fun t : String => (t, toks.count t)) = fun t => t := rfl
  rw [hid]
  have hmapid : ∀ o : Option String, Option.map (fun t : String => t) o = o := by
    intro o
    cases o <;> rfl
  rw [hmapid]
  show toks.find? _ = toks.find? _
  refine find?_congr_mem toks ?_
  intro a ha
  exact count_pred_congr toks a ha

end IMDB
